import Mathlib

/-!
# Verification of classipy's classification core (`classipy/main.py`)

Shallow embedding of the Python source. Numeric values (Python floats compared
and combined by exact field operations in the fragments modelled here) are
represented by `ℚ`.  The source's `eval(bytes(x))` idiom (Python 2: `bytes`
is `str`) re-parses a number's decimal representation before comparing; on the
numeric domain modelled here it is the identity and is embedded as such.
Fallible code paths return `Option`/`Except`.
-/

namespace Classipy

/-! ## Module-level `find_class` (main.py lines 93-111)

```
prevbrk = breaks[0]
classnum = 1
for nextbrk in breaks[1:]:
    if eval(bytes(prevbrk)) <= eval(bytes(value)) <= eval(bytes(nextbrk)):
        return classnum, (prevbrk,nextbrk)
    prevbrk = nextbrk
    classnum += 1
else:
    return None
```
-/

/-- The `for nextbrk in breaks[1:]` loop of the module-level `find_class`:
`prevbrk` is the breakpoint before the remaining list, `classnum` the 1-based
index of the pair currently examined.  The loop's `else` clause (no pair
matched) is the `[]` case. -/
def find_classAux (value prevbrk : ℚ) (classnum : ℕ) : List ℚ → Option (ℕ × ℚ × ℚ)
  | [] => none
  | nextbrk :: rest =>
    if prevbrk ≤ value ∧ value ≤ nextbrk then some (classnum, (prevbrk, nextbrk))
    else find_classAux value nextbrk (classnum + 1) rest

/-- Module-level `find_class(value, breaks)` (main.py lines 93-111).  The
source indexes `breaks[0]` unguarded, so the empty list is outside its domain;
the embedding returns `none` there (no claim touches that case). -/
def find_class (value : ℚ) (breaks : List ℚ) : Option (ℕ × ℚ × ℚ) :=
  match breaks with
  | [] => none
  | b :: rest => find_classAux value b 1 rest

/-! ## `split`'s internal `find_class` (main.py lines 283-320, live code only)

```
prevbrk = breaks[0]
for i,nextbrk in enumerate(breaks[1:]):
    if eval(bytes(val)) < eval(bytes(prevbrk)):
        return None
    elif eval(bytes(prevbrk)) <= eval(bytes(val)) < eval(bytes(nextbrk)):
        return prevbrk,nextbrk
    elif eval(bytes(prevbrk)) == eval(bytes(val)) == eval(bytes(nextbrk)):
        return prevbrk,nextbrk
    elif i+1==len(breaks)-1 and eval(bytes(val)) <= eval(bytes(nextbrk)):
        return prevbrk,nextbrk
    prevbrk = nextbrk
else:
    return None
```
-/

/-- Loop of `split`'s internal `find_class`.  `nextbrk` is `breaks[i+1]`;
the source's `i+1 == len(breaks)-1` test ("`nextbrk` is the final break")
is `rest = []` in the recursion. -/
def splitFindClassAux (val prevbrk : ℚ) : List ℚ → Option (ℚ × ℚ)
  | [] => none
  | nextbrk :: rest =>
    if val < prevbrk then none
    else if prevbrk ≤ val ∧ val < nextbrk then some (prevbrk, nextbrk)
    else if prevbrk = val ∧ val = nextbrk then some (prevbrk, nextbrk)
    else if rest = [] ∧ val ≤ nextbrk then some (prevbrk, nextbrk)
    else splitFindClassAux val nextbrk rest

/-- `split`'s internal classification of one value against the break list
(main.py lines 283-320).  Returns the enclosing pair only (the source's inner
function returns no class index).  Empty break lists never reach this function
in the source (`split` stops earlier); the embedding returns `none` there. -/
def splitFindClass (val : ℚ) (breaks : List ℚ) : Option (ℚ × ℚ) :=
  match breaks with
  | [] => none
  | b :: rest => splitFindClassAux val b rest

/-! ## The `split` pipeline (main.py lines 218-324)

Items are an arbitrary type `α`; the source's `keywrap = lambda x:
forcenumber(key(x))` (extract, then coerce to float or `None`) is modelled as
one function `keyw : α → Option ℚ`.  The source's `exclude` (Python `None` or
a list; `None` behaves exactly like the empty list) is a `List ℚ`; `minval`
and `maxval` are `Option ℚ`.
-/

/-- Value of an item, as used by the source after the
`keywrap(item) is not None` filter has run (where `keyw` is always `some`). -/
def keyval {α : Type*} (keyw : α → Option ℚ) (it : α) : ℚ :=
  (keyw it).getD 0

/-- The filter-and-sort pipeline shared verbatim by `breaks` (main.py lines
186-192) and `split` (lines 261-267):
```
items = (item for item in items if keywrap(item) is not None)
if exclude is not None: items = (item for item in items if keywrap(item) not in exclude)
if minval is not None: items = (item for item in items if keywrap(item) >= minval)
if maxval is not None: items = (item for item in items if keywrap(item) <= maxval)
items = sorted(items, key=keywrap)
```
`sorted` is modelled by insertion sort (only the permutation property and the
by-value order are used by the claims). -/
def prepItems {α : Type*} (keyw : α → Option ℚ) (items : List α) (exclude : List ℚ)
    (minval maxval : Option ℚ) : List α :=
  let its := items.filter (fun it => (keyw it).isSome)
  let its := its.filter (fun it => !(exclude.contains (keyval keyw it)))
  let its := match minval with
    | none => its
    | some m => its.filter (fun it => decide (m ≤ keyval keyw it))
  let its := match maxval with
    | none => its
    | some m => its.filter (fun it => decide (keyval keyw it ≤ m))
  its.insertionSort (fun a b => keyval keyw a ≤ keyval keyw b)

/-- `itertools.groupby(items, key=...)`: consecutive runs of items with equal
key value become one `(keyValue, run)` group. -/
def groupby {α β : Type*} [DecidableEq β] (key : α → β) : List α → List (β × List α)
  | [] => []
  | a :: rest =>
    match groupby key rest with
    | [] => [(key a, [a])]
    | (k, g) :: gs =>
      if key a = k then (key a, a :: g) :: gs else (key a, [a]) :: (k, g) :: gs

/-- `split`'s `breaks` argument: either the name of an algorithm (the
algorithm itself, `values -> breakpoints`, since the `_breaks` module's
implementations are not part of this code) or a caller-supplied list. -/
inductive BreaksArg where
  | algo (f : List ℚ → List ℚ)
  | custom (bs : List ℚ)

/-- `split(items, breaks, key, exclude, minval, maxval, **kwargs)`
(main.py lines 218-324).

After the shared pipeline, breakpoints are resolved; the source then primes a
cursor with `next(breaks_gen)` twice (lines 278-281).  `split` is a Python 2
generator, so with fewer than two breakpoints the `StopIteration` raised by
`next` silently terminates the generator: the result is the empty grouping,
not an error (the `| _ => []` arm).  Otherwise each sorted item is classified
by the internal `find_class` and consecutive equal classifications are grouped
by `itertools.groupby`; groups whose key is `None` are dropped (lines
322-324). -/
def split {α : Type*} (keyw : α → Option ℚ) (items : List α) (brks : BreaksArg)
    (exclude : List ℚ) (minval maxval : Option ℚ) : List ((ℚ × ℚ) × List α) :=
  let its := prepItems keyw items exclude minval maxval
  let values := its.map (keyval keyw)
  let bs := match brks with
    | BreaksArg.algo f => f values
    | BreaksArg.custom l => l
  match bs with
  | _ :: _ :: _ =>
    (groupby (fun it => splitFindClass (keyval keyw it) bs) its).filterMap
      (fun p => p.1.map (fun pr => (pr, p.2)))
  | _ => []

/-! ## `breaks` with `extrabreaks` insertion (main.py lines 167-216) -/

/-- The scan of `breaks`' extra-break insertion loop (main.py lines 206-214):
find the index `i` of the first pair with `prevbrk <= val < nextbrk`.
`i` counts the pairs already passed. -/
def extraBreakIdx (val prevbrk : ℚ) (i : ℕ) : List ℚ → Option ℕ
  | [] => none
  | nextbrk :: rest =>
    if prevbrk ≤ val ∧ val < nextbrk then some i
    else extraBreakIdx val nextbrk (i + 1) rest

/-- One iteration of the `for val in extrabreaks` loop (main.py lines
201-214): if a pair `(oldbreaks[i], oldbreaks[i+1])` with
`oldbreaks[i] <= val < oldbreaks[i+1]` exists, the source runs
`breaks.insert(i, val)` — inserting at index `i`, i.e. *before*
`oldbreaks[i]`; otherwise the value is silently not inserted. -/
def insertOneBreak (breaks : List ℚ) (val : ℚ) : List ℚ :=
  match breaks with
  | [] => []
  | b :: rest =>
    match extraBreakIdx val b 0 rest with
    | some i => breaks.insertIdx i val
    | none => breaks

/-- The `if extrabreaks: for val in extrabreaks: ...` block (main.py lines
200-214); `extrabreaks = None` is modelled as the empty list (both skip the
loop). -/
def insertExtraBreaks (breaks : List ℚ) (extrabreaks : List ℚ) : List ℚ :=
  extrabreaks.foldl insertOneBreak breaks

/-- `breaks(items, algorithm, key, extrabreaks, exclude, minval, maxval,
**kwargs)` (main.py lines 167-216): the shared pipeline, the algorithm applied
to the sorted values, then extra-break insertion. -/
def breaks {α : Type*} (keyw : α → Option ℚ) (items : List α) (f : List ℚ → List ℚ)
    (extrabreaks : List ℚ) (exclude : List ℚ) (minval maxval : Option ℚ) : List ℚ :=
  let its := prepItems keyw items exclude minval maxval
  let values := its.map (keyval keyw)
  insertExtraBreaks (f values) extrabreaks

/-! ## `class_values` (main.py lines 113-165)

A value stop is either a single number or a tuple of numbers (`VStop`).  The
source dispatches on `all(hasattr(valstop, "__iter__") ...)`.  Failures are
modelled by `Except`:
* `indexError`  — `valuestops[0]` on an empty list (line 127);
* `inputError`  — "There must be at least two items in valuestops" (line 129);
* `shapeError`  — "If valuestops are sequences they must all have the same
  length" (line 143);
* `typeError`   — arithmetic between a tuple and a number inside `_lerp`
  (reachable only with a mix of scalar and tuple stops).
-/

/-- A value stop: a plain number or a tuple (e.g. an RGB colour). -/
inductive VStop where
  | scalar : ℚ → VStop
  | tup : List ℚ → VStop
deriving DecidableEq

/-- `hasattr(valstop, "__iter__")`. -/
def VStop.isTup : VStop → Bool
  | VStop.scalar _ => false
  | VStop.tup _ => true

/-- Python's `len()` of a tuple stop (calling `len` on a number raises, but
the source applies it only under the all-tuples guard). -/
def VStop.tupLen : VStop → ℕ
  | VStop.scalar _ => 0
  | VStop.tup l => l.length

/-- Errors `class_values` can raise. -/
inductive CVError where
  | inputError
  | shapeError
  | indexError
  | typeError
deriving DecidableEq

/-- `_lerp(val, oldfrom, oldto, newfrom, newto)` (main.py lines 131-136).
The divisions reachable from `class_values` never divide by zero (`oldrange`
is `classes-1 >= 1` resp. `int(relindex+1) - int(relindex) = 1`), so `ℚ`'s
`x / 0 = 0` convention is never exercised. -/
def lerp (val oldfrom oldto newfrom newto : ℚ) : ℚ :=
  newfrom + (newto - newfrom) * ((val - oldfrom) / (oldto - oldfrom))

/-- `relindex = _lerp(classnum, 0, classes-1, 0, len(valuestops)-1)`
(main.py lines 145/153).  Python computes `classes-1` in exact integer
arithmetic, hence the casts subtract in `ℚ`. -/
def relIndex (classes nstops c : ℕ) : ℚ :=
  lerp (c : ℚ) 0 ((classes : ℚ) - 1) 0 ((nstops : ℚ) - 1)

/-- Scalar-branch `_interpfunc(classnum)` (main.py lines 152-157).  `int(x)`
truncates toward zero; every `relindex` reached is nonnegative, where
truncation is `Int.floor`.  Indexing out of bounds (never reached from
`class_values`) is `indexError`; a tuple stop reaching `_lerp`'s arithmetic is
`typeError`. -/
def interpScalar (classes : ℕ) (valuestops : List VStop) (classnum : ℕ) :
    Except CVError VStop :=
  let r := relIndex classes valuestops.length classnum
  match valuestops.get? (Int.toNat ⌊r⌋), valuestops.get? (Int.toNat ⌈r⌉) with
  | some (VStop.scalar fromval), some (VStop.scalar toval) =>
    Except.ok (VStop.scalar (lerp r (⌊r⌋ : ℚ) (⌊r + 1⌋ : ℚ) fromval toval))
  | some _, some _ => Except.error CVError.typeError
  | _, _ => Except.error CVError.indexError

/-- Tuple-branch `_interpfunc` (main.py lines 144-150): each coordinate of the
zipped endpoint tuples is interpolated independently. -/
def interpTup (classes : ℕ) (valuestops : List VStop) (classnum : ℕ) :
    Except CVError VStop :=
  let r := relIndex classes valuestops.length classnum
  match valuestops.get? (Int.toNat ⌊r⌋), valuestops.get? (Int.toNat ⌈r⌉) with
  | some (VStop.tup fromval), some (VStop.tup toval) =>
    Except.ok (VStop.tup ((fromval.zip toval).map
      (fun p => lerp r (⌊r⌋ : ℚ) (⌊r + 1⌋ : ℚ) p.1 p.2)))
  | some _, some _ => Except.error CVError.typeError
  | _, _ => Except.error CVError.indexError

/-- The `for classnum in range(classes)` accumulation loop (main.py lines
160-163), stopping at the first error as the Python exception would. -/
def collectVals (f : ℕ → Except CVError VStop) : List ℕ → Except CVError (List VStop)
  | [] => Except.ok []
  | c :: cs =>
    match f c with
    | Except.error e => Except.error e
    | Except.ok v =>
      match collectVals f cs with
      | Except.error e => Except.error e
      | Except.ok vs => Except.ok (v :: vs)

/-- `class_values(classes, valuestops)` (main.py lines 113-165). -/
def class_values (classes : ℕ) (valuestops : List VStop) : Except CVError (List VStop) :=
  if classes ≤ 1 then
    match valuestops with
    | [] => Except.error CVError.indexError
    | v :: _ => Except.ok [v]
  else if valuestops.length < 2 then
    Except.error CVError.inputError
  else if valuestops.all VStop.isTup then
    match valuestops with
    | VStop.tup first :: _ =>
      if valuestops.any (fun s => s.tupLen ≠ first.length) then
        Except.error CVError.shapeError
      else
        collectVals (interpTup classes valuestops) (List.range classes)
    | _ => Except.error CVError.typeError
  else
    collectVals (interpScalar classes valuestops) (List.range classes)

/-- The per-class value formula as the spec words it (claim C6): the
fractional position is `r = lerp(c, 0, classCount-1, 0, len(valueStops)-1)`,
and the class value interpolates linearly between `valueStops[floor(r)]` and
`valueStops[ceil(r)]` using the fractional part of `r`.  Stated for scalar
stops; compared against `class_values` from the source. -/
def classValueSpec (classes : ℕ) (stops : List ℚ) (c : ℕ) : ℚ :=
  let r := relIndex classes stops.length c
  let a := stops.getD (Int.toNat ⌊r⌋) 0
  let b := stops.getD (Int.toNat ⌈r⌉) 0
  a + (b - a) * (r - ⌊r⌋)

/-- A stop list in the shape the spec's data model (§3) admits: all scalar or
all tuple.  (A mix of the two is outside the spec's data model; the source
raises a `TypeError` on most, though not all, mixed inputs.) -/
def homogeneous (stops : List VStop) : Prop :=
  (∀ s ∈ stops, s.isTup = false) ∨ (∀ s ∈ stops, s.isTup = true)

/-- Tuple stops of unequal arity: some stop's length differs from the first
stop's length. -/
def unequalArity (stops : List VStop) : Prop :=
  match stops with
  | [] => False
  | s :: _ => ∃ t ∈ stops, t.tupLen ≠ s.tupLen

/-! ## Theorems -/

/-- Claim C1: the module-level `find_class` is claimed to use the half-open
rule `breaks[i] <= v < breaks[i+1]` (final pair inclusive, degenerate pairs by
exact equality).  The code instead tests `prevbrk <= value <= nextbrk`,
inclusive at *both* ends of *every* pair: at the failing input `value = 4`,
`breaks = [1, 4, 7, 10]`, it returns class 1 with pair `(1, 4)`, while the
claimed rule assigns class 2 with pair `(4, 7)` (as the internal path of
`split` indeed does).  The spec's own example is also evaluated. -/
theorem find_class_inclusive_at_interior_break :
    find_class 4 [1, 4, 7, 10] = some (1, (1, 4)) ∧
      splitFindClass 4 [1, 4, 7, 10] = some (4, 7) ∧
      find_class (11 / 2) [1, 4, 7, 10] = some (2, (4, 7)) := by
  refine ⟨by decide, by decide, ?_⟩
  norm_num [find_class, find_classAux]

/-- Claim C3: inserting an extra break `val` with
`breaks[0] <= val < breaks[-1]` is claimed to keep the sequence sorted.  The
code runs `breaks.insert(i, val)` with `i` the index of the *lower* bound of
the matched pair, placing `val` before it: `insertExtraBreaks [1,4,7,10] [5]`
yields `[1, 5, 4, 7, 10]`, which contains `5` but is not sorted. -/
theorem extrabreaks_insert_unsorted :
    insertExtraBreaks [1, 4, 7, 10] [5] = [1, 5, 4, 7, 10] ∧
      ¬ List.Sorted (· ≤ ·) ([1, 5, 4, 7, 10] : List ℚ) ∧
      List.Sorted (· ≤ ·) ([1, 4, 7, 10] : List ℚ) ∧
      (1 : ℚ) ≤ 5 ∧ (5 : ℚ) < 10 := by
  refine ⟨rfl, ?_, ?_, ?_, ?_⟩ <;> decide

/-- Claim C4: there are a value and a sorted breakpoint sequence on which the
module-level `find_class` and `split`'s internal classification return
different enclosing intervals (value `4` on `[1, 4, 7, 10]`: pair `(1, 4)`
versus pair `(4, 7)`), so the two classification code paths are not
extensionally equal. -/
theorem find_class_paths_disagree :
    ∃ (v : ℚ) (bs : List ℚ), List.Sorted (· ≤ ·) bs ∧
      Option.map Prod.snd (find_class v bs) ≠ splitFindClass v bs := by
  refine ⟨4, [1, 4, 7, 10], by decide, by decide⟩

/-- Claim C10 (counterexample): with a breakpoint sequence of length 1,
`split` does *not* fail — being a Python 2 generator, the `StopIteration`
raised while priming the break cursor silently ends it, and the result is the
empty grouping. -/
theorem split_single_break_returns_empty_grouping :
    split (fun x => x) [some (1 : ℚ), some 2] (BreaksArg.custom [5]) [] none none = [] :=
  rfl

/-- Claim C10 (amended): if the resolved breakpoint sequence has fewer than
2 elements, `split` produces no output groups at all — the generator
terminates while priming its break-pair cursor (Python 2 `StopIteration`
semantics), returning the empty grouping rather than raising an error. -/
theorem split_short_breaks_yields_no_groups {α : Type*} (keyw : α → Option ℚ)
    (items : List α) (bs : List ℚ) (exclude : List ℚ) (minval maxval : Option ℚ)
    (h : bs.length < 2) :
    split keyw items (BreaksArg.custom bs) exclude minval maxval = [] := by
  match bs, h with
  | [], _ => rfl
  | [b], _ => rfl

/-- Witness for `split_short_breaks_yields_no_groups` at a concrete input. -/
theorem split_short_breaks_yields_no_groups_witness :
    ([(5 : ℚ)] : List ℚ).length < 2 ∧
      split (fun x => x) [some (3 : ℚ)] (BreaksArg.custom [5]) [] none none = [] :=
  ⟨by decide, split_short_breaks_yields_no_groups (fun x => x) [some (3 : ℚ)] [5] [] none none
    (by decide)⟩

/-- Claim C9: with the same items, key, filter parameters and algorithm
parameters, feeding the breakpoints returned by a prior `breaks` call (no
extra breaks) back into `split` gives exactly the grouping obtained by
running `split` with the algorithm directly: both call sites run the
identical filter-sort pipeline, so the algorithm sees the same value list. -/
theorem split_of_breaks_eq_split_algo {α : Type*} (keyw : α → Option ℚ)
    (items : List α) (f : List ℚ → List ℚ) (exclude : List ℚ)
    (minval maxval : Option ℚ) :
    split keyw items (BreaksArg.custom (breaks keyw items f [] exclude minval maxval))
        exclude minval maxval =
      split keyw items (BreaksArg.algo f) exclude minval maxval :=
  rfl

/-! ### Range and miss behaviour of the module-level `find_class` (C5) -/

/-- In a non-decreasing list, the head is at most the last element. -/
theorem sorted_head_le_getLast : ∀ (a : ℚ) (l : List ℚ),
    List.Sorted (· ≤ ·) (a :: l) → a ≤ (a :: l).getLast (List.cons_ne_nil _ _)
  | a, [], _ => le_refl a
  | _, b :: l, hs => by
    rw [List.getLast_cons (List.cons_ne_nil b l)]
    exact List.rel_of_sorted_cons hs _ (List.getLast_mem _)

/-- If `prevbrk ≤ v` and `v` is at most the final breakpoint, the scan of the
module-level `find_class` succeeds, with a class index between `c` and
`c + rest.length - 1`. -/
theorem find_classAux_finds (v : ℚ) : ∀ (rest : List ℚ) (prevbrk : ℚ) (c : ℕ),
    rest ≠ [] → prevbrk ≤ v →
    v ≤ (prevbrk :: rest).getLast (List.cons_ne_nil _ _) →
    ∃ k pr, find_classAux v prevbrk c rest = some (k, pr) ∧
      c ≤ k ∧ k + 1 ≤ c + rest.length
  | [], _, _, hne, _, _ => absurd rfl hne
  | [nextbrk], prevbrk, c, _, hle, hlast => by
    have hv : v ≤ nextbrk := by
      simpa [List.getLast_cons] using hlast
    exact ⟨c, (prevbrk, nextbrk), by simp [find_classAux, hle, hv], le_refl c, by simp⟩
  | nextbrk :: b :: rest', prevbrk, c, _, hle, hlast => by
    by_cases h : prevbrk ≤ v ∧ v ≤ nextbrk
    · exact ⟨c, (prevbrk, nextbrk), by simp [find_classAux, h], le_refl c,
        by simp only [List.length_cons]; omega⟩
    · have hnv : nextbrk ≤ v := by
        rcases not_and_or.mp h with h1 | h2
        · exact absurd hle h1
        · exact le_of_lt (lt_of_not_le h2)
      have hlast2 : v ≤ (nextbrk :: b :: rest').getLast (List.cons_ne_nil _ _) := by
        simpa [List.getLast_cons] using hlast
      obtain ⟨k, pr, heq, hk1, hk2⟩ :=
        find_classAux_finds v (b :: rest') nextbrk (c + 1) (by simp) hnv hlast2
      refine ⟨k, pr, by rw [find_classAux, if_neg h]; exact heq, by omega, ?_⟩
      simp only [List.length_cons] at hk2 ⊢
      omega

/-- A value strictly below the current lower bound of a sorted break list is
never matched by the scan. -/
theorem find_classAux_none_of_lt (v : ℚ) : ∀ (rest : List ℚ) (prevbrk : ℚ) (c : ℕ),
    List.Sorted (· ≤ ·) (prevbrk :: rest) → v < prevbrk →
    find_classAux v prevbrk c rest = none
  | [], _, _, _, _ => rfl
  | nextbrk :: rest', prevbrk, c, hs, hv => by
    have h1 : prevbrk ≤ nextbrk := List.rel_of_sorted_cons hs _ (by simp)
    have hno : ¬ (prevbrk ≤ v ∧ v ≤ nextbrk) := fun hc => absurd hc.1 (not_le.mpr hv)
    rw [find_classAux, if_neg hno]
    exact find_classAux_none_of_lt v rest' nextbrk (c + 1) hs.of_cons (lt_of_lt_of_le hv h1)

/-- A value strictly above the final breakpoint of a sorted break list is
never matched by the scan. -/
theorem find_classAux_none_of_gt (v : ℚ) : ∀ (rest : List ℚ) (prevbrk : ℚ) (c : ℕ),
    List.Sorted (· ≤ ·) (prevbrk :: rest) →
    (prevbrk :: rest).getLast (List.cons_ne_nil _ _) < v →
    find_classAux v prevbrk c rest = none
  | [], _, _, _, _ => rfl
  | nextbrk :: rest', prevbrk, c, hs, hv => by
    have hlast : (nextbrk :: rest').getLast (List.cons_ne_nil _ _) < v := by
      simpa [List.getLast_cons] using hv
    have hnext : nextbrk ≤ (nextbrk :: rest').getLast (List.cons_ne_nil _ _) :=
      sorted_head_le_getLast _ _ hs.of_cons
    have hno : ¬ (prevbrk ≤ v ∧ v ≤ nextbrk) := fun hc =>
      absurd (lt_of_le_of_lt (le_trans hc.2 hnext) hlast) (lt_irrefl v)
    rw [find_classAux, if_neg hno]
    exact find_classAux_none_of_gt v rest' nextbrk (c + 1) hs.of_cons hlast

/-- Claim C5: on a non-decreasing break list of length at least 2, the
module-level `find_class` returns a class index in `[1, len(breaks)-1]` for
every value inside `[breaks[0], breaks[-1]]`, and `None` (a miss, not an
error — the embedding is a total function) for values strictly below the
first or strictly above the last breakpoint. -/
theorem find_class_range_and_miss (b0 : ℚ) (rest : List ℚ) (v : ℚ)
    (hne : rest ≠ []) (hs : List.Sorted (· ≤ ·) (b0 :: rest)) :
    (b0 ≤ v → v ≤ (b0 :: rest).getLast (List.cons_ne_nil _ _) →
      ∃ k pr, find_class v (b0 :: rest) = some (k, pr) ∧
        1 ≤ k ∧ k ≤ (b0 :: rest).length - 1) ∧
    ((v < b0 ∨ (b0 :: rest).getLast (List.cons_ne_nil _ _) < v) →
      find_class v (b0 :: rest) = none) := by
  constructor
  · intro hlo hhi
    obtain ⟨k, pr, heq, hk1, hk2⟩ := find_classAux_finds v rest b0 1 hne hlo hhi
    exact ⟨k, pr, heq, hk1, by simp only [List.length_cons]; omega⟩
  · rintro (hlt | hgt)
    · exact find_classAux_none_of_lt v rest b0 1 hs hlt
    · exact find_classAux_none_of_gt v rest b0 1 hs hgt

/-- Witness for `find_class_range_and_miss` on `breaks = [1, 4, 7, 10]`. -/
theorem find_class_range_and_miss_witness :
    (([4, 7, 10] : List ℚ) ≠ [] ∧ List.Sorted (· ≤ ·) ([1, 4, 7, 10] : List ℚ)) ∧
      (((1 : ℚ) ≤ 5 → (5 : ℚ) ≤ ([1, 4, 7, 10] : List ℚ).getLast (List.cons_ne_nil _ _) →
        ∃ k pr, find_class 5 [1, 4, 7, 10] = some (k, pr) ∧
          1 ≤ k ∧ k ≤ ([1, 4, 7, 10] : List ℚ).length - 1) ∧
      (((5 : ℚ) < 1 ∨ ([1, 4, 7, 10] : List ℚ).getLast (List.cons_ne_nil _ _) < 5) →
        find_class 5 [1, 4, 7, 10] = none)) :=
  ⟨⟨by decide, by decide⟩, find_class_range_and_miss 1 [4, 7, 10] 5 (by decide) (by decide)⟩

/-! ### Accounting of `split`'s grouping (C2) -/

/-- Concatenating the groups produced by `groupby` restores the input list. -/
theorem groupby_join {α β : Type*} [DecidableEq β] (key : α → β) :
    ∀ l : List α, ((groupby key l).map Prod.snd).flatten = l
  | [] => rfl
  | a :: rest => by
    have ih := groupby_join key rest
    rw [groupby]
    cases hg : groupby key rest with
    | nil =>
      rw [hg] at ih
      simp only [List.map_nil, List.flatten_nil] at ih
      simp [← ih]
    | cons p gs =>
      obtain ⟨k, g⟩ := p
      rw [hg] at ih
      simp only [List.map_cons, List.flatten_cons] at ih
      by_cases hk : key a = k
      · simp [hk, ih]
      · simp [hk, ih]

/-- `groupby` produces no groups only for the empty list. -/
theorem groupby_eq_nil {α β : Type*} [DecidableEq β] {key : α → β} {l : List α}
    (h : groupby key l = []) : l = [] := by
  have := groupby_join key l
  rw [h] at this
  simpa using this.symm

/-- Summed sizes of the groups that `split` keeps (those whose `groupby` key
is `some` interval) count exactly the items classified to some interval. -/
theorem groupby_kept_sizes {α β : Type*} [DecidableEq β] (key : α → Option β) :
    ∀ l : List α,
      (((groupby key l).filterMap (fun p => p.1.map (fun pr => (pr, p.2)))).map
          (fun p => p.2.length)).sum
        = l.countP (fun a => (key a).isSome)
  | [] => rfl
  | a :: rest => by
    have ih := groupby_kept_sizes key rest
    rw [groupby]
    cases hg : groupby key rest with
    | nil =>
      have hrest : rest = [] := groupby_eq_nil hg
      subst hrest
      cases hk : key a <;> simp [List.countP_cons, hk]
    | cons p gs =>
      obtain ⟨k, g⟩ := p
      rw [hg] at ih
      dsimp only
      by_cases hkk : key a = k
      · rw [if_pos hkk]
        cases hk : key a with
        | none =>
          have hk2 : k = none := by rw [← hkk, hk]
          rw [hk2] at ih
          simp only [List.filterMap_cons, Option.map_some', Option.map_none'] at ih ⊢
          simp only [List.countP_cons, hk]
          simpa using ih
        | some b =>
          have hk2 : k = some b := by rw [← hkk, hk]
          rw [hk2] at ih
          simp only [List.filterMap_cons, Option.map_some', Option.map_none'] at ih ⊢
          simp only [List.countP_cons, hk]
          simp only [List.map_cons, List.sum_cons, List.length_cons, List.length_nil] at ih ⊢
          simp only [Option.isSome_some, if_true]
          omega
      · rw [if_neg hkk]
        cases hk : key a with
        | none =>
          simp only [List.filterMap_cons, Option.map_some', Option.map_none'] at ih ⊢
          simp only [List.countP_cons, hk]
          simpa using ih
        | some b =>
          simp only [List.filterMap_cons, Option.map_some', Option.map_none'] at ih ⊢
          simp only [List.countP_cons, hk]
          simp only [List.map_cons, List.sum_cons, List.length_cons, List.length_nil] at ih ⊢
          simp only [Option.isSome_some, if_true]
          omega

/-- With fewer than two breakpoints, `split`'s internal classification never
matches (there are no break pairs to scan). -/
theorem splitFindClass_short (v : ℚ) (bs : List ℚ) (h : bs.length < 2) :
    splitFindClass v bs = none := by
  match bs, h with
  | [], _ => rfl
  | [b], _ => rfl

/-- The filter-sort pipeline never produces more items than it is given. -/
theorem prepItems_length_le {α : Type*} (keyw : α → Option ℚ) (items : List α)
    (exclude : List ℚ) (minval maxval : Option ℚ) :
    (prepItems keyw items exclude minval maxval).length ≤ items.length := by
  unfold prepItems
  have hf : ∀ (l : List α) (p : α → Bool), (List.filter p l).length ≤ l.length :=
    fun l p => List.length_filter_le p l
  cases minval <;> cases maxval <;> simp only [List.length_insertionSort] <;>
    first
      | exact le_trans (hf _ _) (hf _ _)
      | exact le_trans (hf _ _) (le_trans (hf _ _) (hf _ _))
      | exact le_trans (hf _ _) (le_trans (hf _ _) (le_trans (hf _ _) (hf _ _)))

/-- Claim C2: every item passed to `split` either is counted in exactly one
output group, or is excluded by the filters (value failing numeric coercion,
listed in `exclude`, or outside `[minval, maxval]`), or misses every break
interval; hence the summed group sizes plus the excluded count give back the
number of input items. -/
theorem split_partitions {α : Type*} (keyw : α → Option ℚ) (items : List α)
    (bs : List ℚ) (exclude : List ℚ) (minval maxval : Option ℚ)
    (hs : List.Sorted (· ≤ ·) bs) :
    ((split keyw items (BreaksArg.custom bs) exclude minval maxval).map
        (fun p => p.2.length)).sum
      + ((items.length - (prepItems keyw items exclude minval maxval).length)
        + (prepItems keyw items exclude minval maxval).countP
            (fun it => (splitFindClass (keyval keyw it) bs).isNone))
      = items.length := by
  have hlen := prepItems_length_le keyw items exclude minval maxval
  have hsum : ((split keyw items (BreaksArg.custom bs) exclude minval maxval).map
      (fun p => p.2.length)).sum
      = (prepItems keyw items exclude minval maxval).countP
          (fun it => (splitFindClass (keyval keyw it) bs).isSome) := by
    match bs with
    | [] =>
      rw [show split keyw items (BreaksArg.custom []) exclude minval maxval = [] from rfl]
      rw [show ((([] : List ((ℚ × ℚ) × List α)).map (fun p => p.2.length)).sum = 0) from rfl]
      symm
      rw [List.countP_eq_zero]
      intro a _
      simp [splitFindClass]
    | [b] =>
      rw [show split keyw items (BreaksArg.custom [b]) exclude minval maxval = [] from rfl]
      rw [show ((([] : List ((ℚ × ℚ) × List α)).map (fun p => p.2.length)).sum = 0) from rfl]
      symm
      rw [List.countP_eq_zero]
      intro a _
      simp [splitFindClass, splitFindClassAux]
    | b0 :: b1 :: bs' =>
      have hrw : split keyw items (BreaksArg.custom (b0 :: b1 :: bs')) exclude minval maxval
          = (groupby (fun it => splitFindClass (keyval keyw it) (b0 :: b1 :: bs'))
              (prepItems keyw items exclude minval maxval)).filterMap
              (fun p => p.1.map (fun pr => (pr, p.2))) := rfl
      rw [hrw]
      exact groupby_kept_sizes (fun it => splitFindClass (keyval keyw it) (b0 :: b1 :: bs'))
        (prepItems keyw items exclude minval maxval)
  have hcount : (prepItems keyw items exclude minval maxval).countP
        (fun it => (splitFindClass (keyval keyw it) bs).isSome)
      + (prepItems keyw items exclude minval maxval).countP
        (fun it => (splitFindClass (keyval keyw it) bs).isNone)
      = (prepItems keyw items exclude minval maxval).length := by
    have h := List.length_eq_countP_add_countP
      (p := fun it => (splitFindClass (keyval keyw it) bs).isSome)
      (l := prepItems keyw items exclude minval maxval)
    have hco : (prepItems keyw items exclude minval maxval).countP
        (fun it => decide ¬ ((splitFindClass (keyval keyw it) bs).isSome = true))
        = (prepItems keyw items exclude minval maxval).countP
          (fun it => (splitFindClass (keyval keyw it) bs).isNone) := by
      apply List.countP_congr
      intro a _
      cases splitFindClass (keyval keyw a) bs <;> simp
    omega
  omega

/-- Witness for `split_partitions`: five input items, one non-numeric, one
missing every interval; `3 + ((5 - 4) + 1) = 5`. -/
theorem split_partitions_witness :
    List.Sorted (· ≤ ·) ([1, 4, 7, 10] : List ℚ) ∧
      ((split (fun x => x) [some (1 : ℚ), some 2, none, some 5, some 12]
          (BreaksArg.custom [1, 4, 7, 10]) [] none none).map
            (fun p => p.2.length)).sum
        + (([some (1 : ℚ), some 2, none, some 5, some 12].length
            - (prepItems (fun x => x) [some (1 : ℚ), some 2, none, some 5, some 12] [] none none).length)
          + (prepItems (fun x => x) [some (1 : ℚ), some 2, none, some 5, some 12] [] none none).countP
              (fun it => (splitFindClass (keyval (fun x => x) it) [1, 4, 7, 10]).isNone))
        = [some (1 : ℚ), some 2, none, some 5, some 12].length :=
  ⟨by decide, split_partitions (fun x => x) [some (1 : ℚ), some 2, none, some 5, some 12]
    [1, 4, 7, 10] [] none none (by decide)⟩

/-! ### Interpolation arithmetic (C6, C7, C8) -/

/-- Interpolating between equal endpoints yields that endpoint. -/
theorem lerp_same (v f t a : ℚ) : lerp v f t a a = a := by
  unfold lerp
  ring

/-- Interpolation over a unit-length source range divides by one. -/
theorem lerp_succ (x r a b : ℚ) : lerp r x (x + 1) a b = a + (b - a) * (r - x) := by
  unfold lerp
  rw [show x + 1 - x = (1 : ℚ) by ring, div_one]

/-- `int(relindex + 1)` is `int(relindex) + 1`, cast to `ℚ`. -/
theorem floor_add_one_cast (r : ℚ) : ((⌊r + 1⌋ : ℤ) : ℚ) = (⌊r⌋ : ℚ) + 1 := by
  rw [Int.floor_add_one]
  push_cast
  ring

/-- Closed form of `relindex`. -/
theorem relIndex_eq (classes nstops c : ℕ) :
    relIndex classes nstops c = ((nstops : ℚ) - 1) * ((c : ℚ) / ((classes : ℚ) - 1)) := by
  unfold relIndex lerp
  ring

/-- The first class sits at fractional position 0. -/
theorem relIndex_zero (classes nstops : ℕ) : relIndex classes nstops 0 = 0 := by
  rw [relIndex_eq]
  simp

/-- The last class sits at the last stop's position. -/
theorem relIndex_last (classes nstops : ℕ) (h1 : 1 < classes) :
    relIndex classes nstops (classes - 1) = (nstops : ℚ) - 1 := by
  rw [relIndex_eq]
  have hc : ((classes - 1 : ℕ) : ℚ) = (classes : ℚ) - 1 := by
    have : (1 : ℕ) ≤ classes := le_of_lt h1
    push_cast [this]
    ring
  have hne : ((classes : ℚ) - 1) ≠ 0 := by
    have : (1 : ℚ) < (classes : ℚ) := by exact_mod_cast h1
    linarith
  rw [hc, div_self hne, mul_one]

/-- Fractional positions are nonnegative. -/
theorem relIndex_nonneg (classes nstops c : ℕ) (h1 : 1 < classes) (h2 : 2 ≤ nstops) :
    0 ≤ relIndex classes nstops c := by
  rw [relIndex_eq]
  have ha : (0 : ℚ) ≤ (nstops : ℚ) - 1 := by
    have : (2 : ℚ) ≤ (nstops : ℚ) := by exact_mod_cast h2
    linarith
  have hb : (0 : ℚ) ≤ (classes : ℚ) - 1 := by
    have : (1 : ℚ) < (classes : ℚ) := by exact_mod_cast h1
    linarith
  exact mul_nonneg ha (div_nonneg (Nat.cast_nonneg c) hb)

/-- Fractional positions stay within the stop range. -/
theorem relIndex_le (classes nstops c : ℕ) (h1 : 1 < classes) (h2 : 2 ≤ nstops)
    (hc : c < classes) : relIndex classes nstops c ≤ (nstops : ℚ) - 1 := by
  rw [relIndex_eq]
  have ha : (0 : ℚ) ≤ (nstops : ℚ) - 1 := by
    have : (2 : ℚ) ≤ (nstops : ℚ) := by exact_mod_cast h2
    linarith
  have hb : (0 : ℚ) < (classes : ℚ) - 1 := by
    have : (1 : ℚ) < (classes : ℚ) := by exact_mod_cast h1
    linarith
  have hcq : (c : ℚ) ≤ (classes : ℚ) - 1 := by
    have : (c : ℚ) + 1 ≤ (classes : ℚ) := by exact_mod_cast hc
    linarith
  have hdiv : (c : ℚ) / ((classes : ℚ) - 1) ≤ 1 := (div_le_one hb).mpr hcq
  calc ((nstops : ℚ) - 1) * ((c : ℚ) / ((classes : ℚ) - 1))
      ≤ ((nstops : ℚ) - 1) * 1 := by
        exact mul_le_mul_of_nonneg_left hdiv ha
    _ = (nstops : ℚ) - 1 := mul_one _

/-- The floor of a fractional position is a valid stop index. -/
theorem floorIdx_lt (classes nstops c : ℕ) (h1 : 1 < classes) (h2 : 2 ≤ nstops)
    (hc : c < classes) : Int.toNat ⌊relIndex classes nstops c⌋ < nstops := by
  have hle : ⌊relIndex classes nstops c⌋ ≤ (nstops : ℤ) - 1 := by
    have h := relIndex_le classes nstops c h1 h2 hc
    have : relIndex classes nstops c ≤ (((nstops : ℤ) - 1 : ℤ) : ℚ) := by push_cast; linarith
    calc ⌊relIndex classes nstops c⌋ ≤ ⌊(((nstops : ℤ) - 1 : ℤ) : ℚ)⌋ := Int.floor_le_floor this
      _ = (nstops : ℤ) - 1 := Int.floor_intCast _
  omega

/-- The ceiling of a fractional position is a valid stop index. -/
theorem ceilIdx_lt (classes nstops c : ℕ) (h1 : 1 < classes) (h2 : 2 ≤ nstops)
    (hc : c < classes) : Int.toNat ⌈relIndex classes nstops c⌉ < nstops := by
  have hle : ⌈relIndex classes nstops c⌉ ≤ (nstops : ℤ) - 1 := by
    rw [Int.ceil_le]
    have h := relIndex_le classes nstops c h1 h2 hc
    push_cast
    linarith
  omega

/-- `collectVals` succeeds with one output per requested class. -/
theorem collectVals_ok_length {f : ℕ → Except CVError VStop} :
    ∀ {cs : List ℕ} {vs : List VStop}, collectVals f cs = Except.ok vs →
      vs.length = cs.length
  | [], vs, h => by
    simp only [collectVals] at h
    cases h
    rfl
  | c :: cs, vs, h => by
    rw [collectVals] at h
    cases hf : f c with
    | error e => rw [hf] at h; cases h
    | ok v =>
      rw [hf] at h
      cases hrec : collectVals f cs with
      | error e => rw [hrec] at h; cases h
      | ok ws =>
        rw [hrec] at h
        cases h
        simp [collectVals_ok_length hrec]

/-- Each output of a successful `collectVals` run is the value computed for
the class index at the same position. -/
theorem collectVals_ok_get {f : ℕ → Except CVError VStop} :
    ∀ {cs : List ℕ} {vs : List VStop}, collectVals f cs = Except.ok vs →
      ∀ i c, cs.get? i = some c → ∃ v, vs.get? i = some v ∧ f c = Except.ok v
  | [], vs, h => by
    intro i c hc
    cases hc
  | c0 :: cs, vs, h => by
    rw [collectVals] at h
    cases hf : f c0 with
    | error e => rw [hf] at h; cases h
    | ok v =>
      rw [hf] at h
      cases hrec : collectVals f cs with
      | error e => rw [hrec] at h; cases h
      | ok ws =>
        rw [hrec] at h
        cases h
        intro i c hc
        match i, hc with
        | 0, hc => exact ⟨v, rfl, by cases hc; exact hf⟩
        | i + 1, hc => exact collectVals_ok_get hrec i c hc

/-- If every class value computes, the collection loop succeeds and returns
the pointwise results. -/
theorem collectVals_ok_of_eq {f : ℕ → Except CVError VStop} {g : ℕ → VStop} :
    ∀ cs : List ℕ, (∀ c ∈ cs, f c = Except.ok (g c)) →
      collectVals f cs = Except.ok (cs.map g)
  | [], _ => rfl
  | c :: cs, h => by
    rw [collectVals, h c (by simp), collectVals_ok_of_eq cs (fun d hd => h d (by simp [hd]))]
    rfl

/-- Zipping a list with itself and mapping a binary function is mapping its
diagonal. -/
theorem zip_self_map {γ : Type*} (g : ℚ → ℚ → γ) :
    ∀ l : List ℚ, (l.zip l).map (fun p => g p.1 p.2) = l.map (fun a => g a a)
  | [] => rfl
  | a :: l => by
    simp only [List.zip_cons_cons, List.map_cons]
    rw [zip_self_map g l]

/-- On scalar stops, the code's per-class computation agrees with the spec's
interpolation formula `stops[floor r] + (stops[ceil r] - stops[floor r]) *
(r - floor r)`. -/
theorem interpScalar_map_eq (classes : ℕ) (stops : List ℚ) (c : ℕ)
    (h1 : 1 < classes) (h2 : 2 ≤ stops.length) (hc : c < classes) :
    interpScalar classes (stops.map VStop.scalar) c
      = Except.ok (VStop.scalar (classValueSpec classes stops c)) := by
  have hf := floorIdx_lt classes stops.length c h1 h2 hc
  have hcl := ceilIdx_lt classes stops.length c h1 h2 hc
  unfold interpScalar classValueSpec
  simp only [List.length_map]
  rw [List.get?_map, List.get?_map, List.get?_eq_get hf, List.get?_eq_get hcl]
  simp only [Option.map_some']
  rw [List.getD_eq_get?, List.getD_eq_get?, List.get?_eq_get hf, List.get?_eq_get hcl]
  simp only [Option.getD_some]
  rw [floor_add_one_cast, lerp_succ]

/-- A successful scalar interpolation at class 0 returns the first stop. -/
theorem interpScalar_first (classes : ℕ) (stops : List VStop) (v : VStop)
    (h : interpScalar classes stops 0 = Except.ok v) : stops.get? 0 = some v := by
  unfold interpScalar at h
  simp only [relIndex_zero, Int.floor_zero, Int.ceil_zero, Int.toNat_zero] at h
  cases hg : stops.get? 0 with
  | none => rw [hg] at h; cases h
  | some s =>
    rw [hg] at h
    cases s with
    | scalar a =>
      simp only [lerp_same] at h
      cases h
      rfl
    | tup l => cases h

/-- A successful tuple interpolation at class 0 returns the first stop. -/
theorem interpTup_first (classes : ℕ) (stops : List VStop) (v : VStop)
    (h : interpTup classes stops 0 = Except.ok v) : stops.get? 0 = some v := by
  unfold interpTup at h
  simp only [relIndex_zero, Int.floor_zero, Int.ceil_zero, Int.toNat_zero] at h
  cases hg : stops.get? 0 with
  | none => rw [hg] at h; cases h
  | some s =>
    rw [hg] at h
    cases s with
    | scalar a => cases h
    | tup l =>
      dsimp only at h
      rw [zip_self_map] at h
      simp only [lerp_same, List.map_id'] at h
      cases h
      rfl

/-- A successful scalar interpolation at the final class returns the last
stop. -/
theorem interpScalar_final (classes : ℕ) (stops : List VStop) (v : VStop)
    (h1 : 1 < classes) (h2 : 2 ≤ stops.length)
    (h : interpScalar classes stops (classes - 1) = Except.ok v) :
    stops.get? (stops.length - 1) = some v := by
  unfold interpScalar at h
  have hint : ((stops.length : ℚ) - 1) = (((stops.length : ℤ) - 1 : ℤ) : ℚ) := by
    push_cast
    ring
  have htn : ((stops.length : ℤ) - 1).toNat = stops.length - 1 := by omega
  simp only [relIndex_last classes stops.length h1, hint, Int.floor_intCast,
    Int.ceil_intCast, htn] at h
  cases hg : stops.get? (stops.length - 1) with
  | none => rw [hg] at h; cases h
  | some s =>
    rw [hg] at h
    cases s with
    | scalar a =>
      simp only [lerp_same] at h
      cases h
      rfl
    | tup l => cases h

/-- A successful tuple interpolation at the final class returns the last
stop. -/
theorem interpTup_final (classes : ℕ) (stops : List VStop) (v : VStop)
    (h1 : 1 < classes) (h2 : 2 ≤ stops.length)
    (h : interpTup classes stops (classes - 1) = Except.ok v) :
    stops.get? (stops.length - 1) = some v := by
  unfold interpTup at h
  have hint : ((stops.length : ℚ) - 1) = (((stops.length : ℤ) - 1 : ℤ) : ℚ) := by
    push_cast
    ring
  have htn : ((stops.length : ℤ) - 1).toNat = stops.length - 1 := by omega
  simp only [relIndex_last classes stops.length h1, hint, Int.floor_intCast,
    Int.ceil_intCast, htn] at h
  cases hg : stops.get? (stops.length - 1) with
  | none => rw [hg] at h; cases h
  | some s =>
    rw [hg] at h
    cases s with
    | scalar a => cases h
    | tup l =>
      dsimp only at h
      rw [zip_self_map] at h
      simp only [lerp_same, List.map_id'] at h
      cases h
      rfl

/-- A successful `class_values` run with more than one class has at least two
stops and went through either the scalar or the tuple interpolation loop. -/
theorem class_values_ok_branches (classes : ℕ) (stops out : List VStop)
    (h1 : 1 < classes) (hok : class_values classes stops = Except.ok out) :
    2 ≤ stops.length ∧
      (collectVals (interpScalar classes stops) (List.range classes) = Except.ok out ∨
       collectVals (interpTup classes stops) (List.range classes) = Except.ok out) := by
  unfold class_values at hok
  rw [if_neg (by omega)] at hok
  by_cases hlen : stops.length < 2
  · rw [if_pos hlen] at hok
    cases hok
  · rw [if_neg hlen] at hok
    refine ⟨by omega, ?_⟩
    by_cases htup : stops.all VStop.isTup = true
    · rw [if_pos htup] at hok
      cases stops with
      | nil => exact absurd (by simp) hlen
      | cons s rest =>
        cases s with
        | scalar q => simp [VStop.isTup] at htup
        | tup first =>
          dsimp only at hok
          by_cases hany : (VStop.tup first :: rest).any (fun s => s.tupLen ≠ first.length) = true
          · rw [if_pos hany] at hok
            cases hok
          · rw [if_neg hany] at hok
            exact Or.inr hok
    · rw [if_neg htup] at hok
      exact Or.inl hok

/-- With more than one class and at least two scalar stops, `class_values`
takes the scalar interpolation branch. -/
theorem class_values_scalar_branch (classes : ℕ) (stops : List ℚ)
    (h1 : 1 < classes) (h2 : 2 ≤ stops.length) :
    class_values classes (stops.map VStop.scalar)
      = collectVals (interpScalar classes (stops.map VStop.scalar)) (List.range classes) := by
  obtain ⟨s, rest, hsr⟩ : ∃ s rest, stops = s :: rest := by
    cases stops with
    | nil => simp at h2
    | cons a l => exact ⟨a, l, rfl⟩
  subst hsr
  unfold class_values
  rw [if_neg (by omega), if_neg (by simp only [List.length_map]; omega),
    if_neg (by simp [VStop.isTup])]

/-- Claim C6: for more than one class and at least two scalar value stops,
each class value produced by `class_values` is the linear interpolation
between `valueStops[floor(r)]` and `valueStops[ceil(r)]` at the fractional
part of `r = lerp(c, 0, classCount-1, 0, len(valueStops)-1)`; in particular
`class_values 3 [0, 10] = [0, 5, 10]`. -/
theorem class_values_matches_spec_formula (classes : ℕ) (stops : List ℚ)
    (h1 : 1 < classes) (h2 : 2 ≤ stops.length) :
    (∃ out, class_values classes (stops.map VStop.scalar) = Except.ok out ∧
      ∀ c, c < classes → out.get? c = some (VStop.scalar (classValueSpec classes stops c))) ∧
    class_values 3 [VStop.scalar 0, VStop.scalar 10]
      = Except.ok [VStop.scalar 0, VStop.scalar 5, VStop.scalar 10] := by
  constructor
  · refine ⟨(List.range classes).map (fun c => VStop.scalar (classValueSpec classes stops c)),
      ?_, ?_⟩
    · rw [class_values_scalar_branch classes stops h1 h2]
      exact collectVals_ok_of_eq _
        (fun c hcm => interpScalar_map_eq classes stops c h1 h2 (List.mem_range.mp hcm))
    · intro c hc
      rw [List.get?_map, List.get?_eq_getElem?, List.getElem?_range hc]
      rfl
  · have hbr : class_values 3 [VStop.scalar 0, VStop.scalar 10]
        = collectVals (interpScalar 3 (([0, 10] : List ℚ).map VStop.scalar)) (List.range 3) :=
      class_values_scalar_branch 3 [0, 10] (by omega) (by simp)
    rw [hbr, collectVals_ok_of_eq (g := fun c => VStop.scalar (classValueSpec 3 [0, 10] c)) _
      (fun c hcm => interpScalar_map_eq 3 [0, 10] c (by omega) (by simp)
        (List.mem_range.mp hcm))]
    have hv0 : classValueSpec 3 [0, 10] 0 = 0 := by
      unfold classValueSpec
      simp [relIndex_zero]
    have hv1 : classValueSpec 3 [0, 10] 1 = 5 := by
      have hr : relIndex 3 2 1 = 1 / 2 := by
        rw [relIndex_eq]
        norm_num
      have hfl : ⌊(1 : ℚ) / 2⌋ = 0 := by
        rw [Int.floor_eq_iff]
        constructor <;> norm_num
      have hcl : ⌈(1 : ℚ) / 2⌉ = 1 := by
        rw [Int.ceil_eq_iff]
        constructor <;> norm_num
      norm_num [classValueSpec, hr, hfl, hcl, List.getD]
    have hv2 : classValueSpec 3 [0, 10] 2 = 10 := by
      have hr : relIndex 3 2 2 = 1 := by
        rw [relIndex_eq]
        norm_num
      norm_num [classValueSpec, hr, Int.floor_one, Int.ceil_one, List.getD]
    rw [show List.range 3 = [0, 1, 2] from rfl]
    simp only [List.map_cons, List.map_nil]
    rw [hv0, hv1, hv2]

/-- Witness for `class_values_matches_spec_formula` at `classes = 3`,
`stops = [0, 10]`. -/
theorem class_values_matches_spec_formula_witness :
    (1 < 3 ∧ 2 ≤ ([0, 10] : List ℚ).length) ∧
      ((∃ out, class_values 3 (([0, 10] : List ℚ).map VStop.scalar) = Except.ok out ∧
        ∀ c, c < 3 → out.get? c = some (VStop.scalar (classValueSpec 3 [0, 10] c))) ∧
      class_values 3 [VStop.scalar 0, VStop.scalar 10]
        = Except.ok [VStop.scalar 0, VStop.scalar 5, VStop.scalar 10]) :=
  ⟨⟨by omega, by simp⟩, class_values_matches_spec_formula 3 [0, 10] (by omega) (by simp)⟩

/-- Claim C7: a successful `class_values n stops` run with `n > 1` returns
exactly `n` values, and when `n = len(stops)` its first and last values are
the first and last stops. -/
theorem class_values_length_and_endpoints (classes : ℕ) (stops out : List VStop)
    (h1 : 1 < classes) (hok : class_values classes stops = Except.ok out) :
    out.length = classes ∧
      (classes = stops.length → out.head? = stops.head? ∧ out.getLast? = stops.getLast?) := by
  obtain ⟨h2, hbr⟩ := class_values_ok_branches classes stops out h1 hok
  have hlen : out.length = classes := by
    cases hbr with
    | inl h => simpa using collectVals_ok_length h
    | inr h => simpa using collectVals_ok_length h
  refine ⟨hlen, fun _ => ?_⟩
  have hr0 : (List.range classes).get? 0 = some 0 := by
    rw [List.get?_eq_getElem?, List.getElem?_range (by omega)]
  have hrl : (List.range classes).get? (classes - 1) = some (classes - 1) := by
    rw [List.get?_eq_getElem?, List.getElem?_range (by omega)]
  have hstops0 : ∃ v, out.get? 0 = some v ∧ stops.get? 0 = some v := by
    cases hbr with
    | inl h =>
      obtain ⟨v, hv, hfv⟩ := collectVals_ok_get h 0 0 hr0
      exact ⟨v, hv, interpScalar_first classes stops v hfv⟩
    | inr h =>
      obtain ⟨v, hv, hfv⟩ := collectVals_ok_get h 0 0 hr0
      exact ⟨v, hv, interpTup_first classes stops v hfv⟩
  have hstopsl : ∃ v, out.get? (classes - 1) = some v ∧
      stops.get? (stops.length - 1) = some v := by
    cases hbr with
    | inl h =>
      obtain ⟨v, hv, hfv⟩ := collectVals_ok_get h (classes - 1) (classes - 1) hrl
      exact ⟨v, hv, interpScalar_final classes stops v h1 h2 hfv⟩
    | inr h =>
      obtain ⟨v, hv, hfv⟩ := collectVals_ok_get h (classes - 1) (classes - 1) hrl
      exact ⟨v, hv, interpTup_final classes stops v h1 h2 hfv⟩
  constructor
  · obtain ⟨v, hv1, hv2⟩ := hstops0
    rw [List.head?_eq_getElem?, List.head?_eq_getElem?, ← List.get?_eq_getElem?,
      ← List.get?_eq_getElem?, hv1, hv2]
  · obtain ⟨v, hv1, hv2⟩ := hstopsl
    rw [List.getLast?_eq_getElem?, List.getLast?_eq_getElem?, ← List.get?_eq_getElem?,
      ← List.get?_eq_getElem?, hlen, hv1, hv2]

/-- Concrete evaluation used by the witness of
`class_values_length_and_endpoints`. -/
theorem class_values_two_stops_eval :
    class_values 2 [VStop.scalar 0, VStop.scalar 10]
      = Except.ok [VStop.scalar 0, VStop.scalar 10] := by
  have hbr : class_values 2 [VStop.scalar 0, VStop.scalar 10]
      = collectVals (interpScalar 2 (([0, 10] : List ℚ).map VStop.scalar)) (List.range 2) :=
    class_values_scalar_branch 2 [0, 10] (by omega) (by simp)
  rw [hbr, collectVals_ok_of_eq (g := fun c => VStop.scalar (classValueSpec 2 [0, 10] c)) _
    (fun c hcm => interpScalar_map_eq 2 [0, 10] c (by omega) (by simp)
      (List.mem_range.mp hcm))]
  have hv0 : classValueSpec 2 [0, 10] 0 = 0 := by
    unfold classValueSpec
    simp [relIndex_zero]
  have hv1 : classValueSpec 2 [0, 10] 1 = 10 := by
    have hr : relIndex 2 2 1 = 1 := by
      rw [relIndex_eq]
      norm_num
    norm_num [classValueSpec, hr, Int.floor_one, Int.ceil_one, List.getD]
  rw [show List.range 2 = [0, 1] from rfl]
  simp only [List.map_cons, List.map_nil]
  rw [hv0, hv1]

/-- Witness for `class_values_length_and_endpoints` at `n = 2`,
`stops = [0, 10]`. -/
theorem class_values_length_and_endpoints_witness :
    (1 < 2 ∧ class_values 2 [VStop.scalar 0, VStop.scalar 10]
        = Except.ok [VStop.scalar 0, VStop.scalar 10]) ∧
      (([VStop.scalar 0, VStop.scalar 10] : List VStop).length = 2 ∧
        (2 = ([VStop.scalar 0, VStop.scalar 10] : List VStop).length →
          ([VStop.scalar 0, VStop.scalar 10] : List VStop).head?
              = ([VStop.scalar 0, VStop.scalar 10] : List VStop).head? ∧
            ([VStop.scalar 0, VStop.scalar 10] : List VStop).getLast?
              = ([VStop.scalar 0, VStop.scalar 10] : List VStop).getLast?)) :=
  ⟨⟨by omega, class_values_two_stops_eval⟩,
    class_values_length_and_endpoints 2 [VStop.scalar 0, VStop.scalar 10]
      [VStop.scalar 0, VStop.scalar 10] (by omega) class_values_two_stops_eval⟩

/-! ### Error behaviour of `class_values` (C8) -/

/-- With enough all-scalar stops, scalar interpolation cannot fail. -/
theorem interpScalar_ok (classes : ℕ) (stops : List VStop) (c : ℕ)
    (h1 : 1 < classes) (h2 : 2 ≤ stops.length) (hc : c < classes)
    (hsc : ∀ s ∈ stops, s.isTup = false) :
    ∃ q, interpScalar classes stops c = Except.ok (VStop.scalar q) := by
  have hf := floorIdx_lt classes stops.length c h1 h2 hc
  have hcl := ceilIdx_lt classes stops.length c h1 h2 hc
  simp only [interpScalar]
  rw [List.get?_eq_get hf, List.get?_eq_get hcl]
  cases hsf : stops.get ⟨Int.toNat ⌊relIndex classes stops.length c⌋, hf⟩ with
  | tup l =>
    have hmem := hsc _ (List.get_mem stops (Int.toNat ⌊relIndex classes stops.length c⌋) hf)
    rw [hsf] at hmem
    simp [VStop.isTup] at hmem
  | scalar a =>
    cases hsg : stops.get ⟨Int.toNat ⌈relIndex classes stops.length c⌉, hcl⟩ with
    | tup l =>
      have hmem := hsc _ (List.get_mem stops (Int.toNat ⌈relIndex classes stops.length c⌉) hcl)
      rw [hsg] at hmem
      simp [VStop.isTup] at hmem
    | scalar b => exact ⟨_, rfl⟩

/-- With enough all-tuple stops, tuple interpolation cannot fail. -/
theorem interpTup_ok (classes : ℕ) (stops : List VStop) (c : ℕ)
    (h1 : 1 < classes) (h2 : 2 ≤ stops.length) (hc : c < classes)
    (htp : ∀ s ∈ stops, s.isTup = true) :
    ∃ l, interpTup classes stops c = Except.ok (VStop.tup l) := by
  have hf := floorIdx_lt classes stops.length c h1 h2 hc
  have hcl := ceilIdx_lt classes stops.length c h1 h2 hc
  simp only [interpTup]
  rw [List.get?_eq_get hf, List.get?_eq_get hcl]
  cases hsf : stops.get ⟨Int.toNat ⌊relIndex classes stops.length c⌋, hf⟩ with
  | scalar a =>
    have hmem := htp _ (List.get_mem stops (Int.toNat ⌊relIndex classes stops.length c⌋) hf)
    rw [hsf] at hmem
    simp [VStop.isTup] at hmem
  | tup l =>
    cases hsg : stops.get ⟨Int.toNat ⌈relIndex classes stops.length c⌉, hcl⟩ with
    | scalar a =>
      have hmem := htp _ (List.get_mem stops (Int.toNat ⌈relIndex classes stops.length c⌉) hcl)
      rw [hsg] at hmem
      simp [VStop.isTup] at hmem
    | tup l2 => exact ⟨_, rfl⟩

/-- If each class value computes, the collection loop succeeds. -/
theorem collectVals_ok_forall {f : ℕ → Except CVError VStop} :
    ∀ cs : List ℕ, (∀ c ∈ cs, ∃ v, f c = Except.ok v) →
      ∃ vs, collectVals f cs = Except.ok vs
  | [], _ => ⟨[], rfl⟩
  | c :: cs, h => by
    obtain ⟨v, hv⟩ := h c (by simp)
    obtain ⟨vs, hvs⟩ := collectVals_ok_forall cs (fun d hd => h d (by simp [hd]))
    exact ⟨v :: vs, by rw [collectVals, hv, hvs]⟩

/-- Claim C8 (counterexample): with no value stops and `classCount = 0` the
source evaluates `valuestops[0]` and dies with an `IndexError` — an error
outside the claim's taxonomy, where the claim promises the error-free result
`[valueStops[0]]` for every `classCount <= 1`. -/
theorem class_values_empty_stops_error :
    class_values 0 [] = Except.error CVError.indexError := rfl

/-- Claim C8 (amended): for homogeneous stops (all scalar or all tuple — the
shapes the spec's data model admits), `class_values` errors exactly when the
stops are empty, or `classCount > 1` with fewer than two stops (InputError),
or `classCount > 1` with tuple stops of unequal arity (ShapeError); and for
`classCount <= 1` with nonempty stops it returns exactly `[valueStops[0]]`. -/
theorem class_values_error_iff (classes : ℕ) (stops : List VStop)
    (hh : homogeneous stops) :
    ((∃ e, class_values classes stops = Except.error e) ↔
      (stops = [] ∨ (1 < classes ∧ stops.length < 2) ∨
        (1 < classes ∧ (∀ s ∈ stops, s.isTup = true) ∧ unequalArity stops))) ∧
    (∀ v rest, classes ≤ 1 → stops = v :: rest →
      class_values classes stops = Except.ok [v]) := by
  have hok : ¬ (stops = [] ∨ (1 < classes ∧ stops.length < 2) ∨
      (1 < classes ∧ (∀ s ∈ stops, s.isTup = true) ∧ unequalArity stops)) →
      ∃ vs, class_values classes stops = Except.ok vs := by
    intro hn
    push_neg at hn
    obtain ⟨hne, hlen2, huneq⟩ := hn
    by_cases hcls : classes ≤ 1
    · obtain ⟨v, rest, hvr⟩ : ∃ v rest, stops = v :: rest := by
        cases stops with
        | nil => exact absurd rfl hne
        | cons a l => exact ⟨a, l, rfl⟩
      subst hvr
      refine ⟨[v], ?_⟩
      unfold class_values
      rw [if_pos hcls]
    · have h1 : 1 < classes := by omega
      have h2 : 2 ≤ stops.length := hlen2 h1
      unfold class_values
      rw [if_neg hcls, if_neg (by omega)]
      cases hh with
      | inl hsc =>
        have hall : ¬ (stops.all VStop.isTup = true) := by
          cases stops with
          | nil => simp at h2
          | cons s rest => simp [List.all_cons, hsc s (by simp)]
        rw [if_neg hall]
        refine collectVals_ok_forall _ (fun c hcm => ?_)
        obtain ⟨q, hq⟩ := interpScalar_ok classes stops c h1 h2 (List.mem_range.mp hcm) hsc
        exact ⟨VStop.scalar q, hq⟩
      | inr htp =>
        have hall : stops.all VStop.isTup = true := List.all_eq_true.mpr htp
        rw [if_pos hall]
        cases stops with
        | nil => simp at h2
        | cons s rest =>
          cases s with
          | scalar q => simpa [VStop.isTup] using htp (VStop.scalar q) (by simp)
          | tup first =>
            dsimp only
            have hnone : ¬ unequalArity (VStop.tup first :: rest) := huneq h1 htp
            have hany : ¬ ((VStop.tup first :: rest).any
                (fun s => decide (s.tupLen ≠ first.length)) = true) := by
              rw [List.any_eq_true]
              rintro ⟨t, ht, htl⟩
              exact hnone ⟨t, ht, by simpa [VStop.tupLen] using htl⟩
            rw [if_neg hany]
            refine collectVals_ok_forall _ (fun c hcm => ?_)
            obtain ⟨l, hl⟩ := interpTup_ok classes (VStop.tup first :: rest) c h1 h2
              (List.mem_range.mp hcm) htp
            exact ⟨VStop.tup l, hl⟩
  refine ⟨⟨?_, ?_⟩, ?_⟩
  · intro he
    by_contra hr
    obtain ⟨vs, hvs⟩ := hok hr
    obtain ⟨e, he'⟩ := he
    rw [hvs] at he'
    cases he'
  · rintro (hnil | ⟨h1, hlen⟩ | ⟨h1, htp, huneq⟩)
    · subst hnil
      by_cases hcls : classes ≤ 1
      · exact ⟨CVError.indexError, by unfold class_values; rw [if_pos hcls]⟩
      · exact ⟨CVError.inputError, by unfold class_values; rw [if_neg hcls, if_pos (by simp)]⟩
    · exact ⟨CVError.inputError, by unfold class_values; rw [if_neg (by omega), if_pos hlen]⟩
    · by_cases hlen : stops.length < 2
      · exact ⟨CVError.inputError, by unfold class_values; rw [if_neg (by omega), if_pos hlen]⟩
      · have hall : stops.all VStop.isTup = true := List.all_eq_true.mpr htp
        cases stops with
        | nil => exact huneq.elim
        | cons s rest =>
          cases s with
          | scalar q => simpa [VStop.isTup] using htp (VStop.scalar q) (by simp)
          | tup first =>
            refine ⟨CVError.shapeError, ?_⟩
            unfold class_values
            rw [if_neg (by omega), if_neg hlen, if_pos hall]
            dsimp only
            obtain ⟨t, ht, htl⟩ := huneq
            rw [if_pos (List.any_eq_true.mpr ⟨t, ht, by simpa [VStop.tupLen] using htl⟩)]
  · intro v rest hcls hvr
    subst hvr
    unfold class_values
    rw [if_pos hcls]

/-- Witness for `class_values_error_iff` on the homogeneous stop list
`[scalar 1]`. -/
theorem class_values_error_iff_witness :
    homogeneous [VStop.scalar 1] ∧
      (((∃ e, class_values 2 [VStop.scalar 1] = Except.error e) ↔
        (([VStop.scalar 1] : List VStop) = [] ∨
          (1 < 2 ∧ ([VStop.scalar 1] : List VStop).length < 2) ∨
          (1 < 2 ∧ (∀ s ∈ ([VStop.scalar 1] : List VStop), s.isTup = true) ∧
            unequalArity [VStop.scalar 1]))) ∧
      (∀ v rest, 2 ≤ 1 → ([VStop.scalar 1] : List VStop) = v :: rest →
        class_values 2 [VStop.scalar 1] = Except.ok [v])) :=
  ⟨Or.inl (by decide), class_values_error_iff 2 [VStop.scalar 1] (Or.inl (by decide))⟩

end Classipy
